import Mathlib

/-!
Verification of the retrieval pipeline of `pdf-chat-ollama`.

The Python code under verification lives in `pdf_processor.py` (sentence
splitting, token counting, overlap extraction, chunking), `vector_store.py`
(text cleaning, embedding retry loop, document ingestion, similarity
search) and `chat_engine.py` (context formatting).

Modelling conventions:
* Python strings are modelled as lists of characters (`Str`); ASCII
  whitespace stands in for Python's `\s` / `str.strip()` whitespace class.
* Machine integers are `Nat`; the float expressions `int(n * 1.33)` and
  `int(n * 0.75)` are modelled by the exact integer computations
  `n * 133 / 100` and `n * 3 / 4`, which agree with the Python float
  results on the ranges that occur here.
* The external embedding backend and the ChromaDB collection are abstract
  functions returning `Except`; an exception raised in Python is an
  `.error` value, and mutable state is passed explicitly.
-/

namespace PdfChat

/-- Python strings, modelled as lists of characters. -/
abbrev Str := List Char

/-- Python's whitespace class (ASCII part), as used by `\s`, `str.strip()`
and `str.split()`. -/
def isPySpace (c : Char) : Bool :=
  c = ' ' || c = '\t' || c = '\n' || c = '\r' || c = '\x0b' || c = '\x0c'

/-- Sentence-ending punctuation used by the lookbehind in
`_split_into_sentences`: `.`, `!`, `?`. -/
def isSentEnd (c : Char) : Bool :=
  c = '.' || c = '!' || c = '?'

/-- Python `str.strip()`: drop whitespace from both ends. -/
def pytrim (l : Str) : Str :=
  (l.dropWhile isPySpace).rdropWhile isPySpace

/-- Python `str.split()` with no argument: split on whitespace runs,
discarding empty fragments.  The accumulator holds the current word
reversed. -/
def pywords_aux : Str → Str → List Str
  | [], accR => if accR = [] then [] else [accR.reverse]
  | c :: rest, accR =>
    if isPySpace c then
      if accR = [] then pywords_aux rest []
      else accR.reverse :: pywords_aux rest []
    else pywords_aux rest (c :: accR)

/-- Python `str.split()` with no argument. -/
def pywords (l : Str) : List Str := pywords_aux l []

/-- Python `" ".join(ws)`. -/
def joinSp : List Str → Str
  | [] => []
  | [w] => w
  | w :: ws => w ++ ' ' :: joinSp ws

/-- `PDFProcessor.count_tokens` in fallback mode (`self.tokenizer is None`):
`int(len(text.split()) * 1.33)`. -/
def count_tokens_fallback (t : Str) : Nat :=
  (pywords t).length * 133 / 100

/-- The pieces produced by `re.split(r'(?<=[.!?])\s+', text)` in
`_split_into_sentences`: a maximal whitespace run immediately preceded by
`.`, `!` or `?` separates two pieces.  The accumulator holds the current
piece reversed; the flag records that the scanner is inside a separator
whitespace run (so further whitespace is consumed by the same match). -/
def split_pieces_aux : Str → Str → Bool → List Str
  | [], accR, _ => [accR.reverse]
  | c :: rest, accR, inSep =>
    if inSep then
      if isPySpace c then split_pieces_aux rest accR true
      else split_pieces_aux rest [c] false
    else
      match accR with
      | p :: _ =>
        if isPySpace c && isSentEnd p then
          accR.reverse :: split_pieces_aux rest [] true
        else split_pieces_aux rest (c :: accR) false
      | [] => split_pieces_aux rest [c] false

/-- The piece list of `re.split(r'(?<=[.!?])\s+', text)`. -/
def split_pieces (text : Str) : List Str := split_pieces_aux text [] false

/-- `PDFProcessor._split_into_sentences`: regex split at whitespace after
sentence-ending punctuation, then `[s.strip() for s in sentences if s.strip()]`. -/
def split_into_sentences (text : Str) : List Str :=
  ((split_pieces text).map pytrim).filter (· ≠ [])

/-- `PDFProcessor._get_overlap_text` in fallback mode (no tokenizer):
`overlap_words = int(overlap_tokens * 0.75); " ".join(words[-overlap_words:])`. -/
def get_overlap_text_fallback (text : Str) (overlapTokens : Nat) : Str :=
  if text = [] || overlapTokens == 0 then []
  else
    let ws := pywords text
    if ws = [] then []
    else
      let k := overlapTokens * 3 / 4
      if k = 0 then joinSp ws   -- Python's words[-0:] is the whole list
      else joinSp (ws.drop (ws.length - k))

/-- `PDFProcessor._get_overlap_text` with an exact tokenizer `tok`
(`tok text` models `len(self.tokenizer.encode(text))`): walk the words
from the right, growing the overlap while its token count stays within
`overlapTokens`. -/
def overlap_accum (tok : Str → Nat) (overlapTokens : Nat) :
    List Str → Str → Str
  | [], acc => acc
  | w :: rest, acc =>
    let test := w ++ ' ' :: acc
    if tok test > overlapTokens then acc
    else overlap_accum tok overlapTokens rest test

/-- `PDFProcessor._get_overlap_text` in exact-tokenizer mode. -/
def get_overlap_text_tok (tok : Str → Nat) (text : Str)
    (overlapTokens : Nat) : Str :=
  if text = [] || overlapTokens == 0 then []
  else
    let ws := pywords text
    if ws = [] then []
    else if tok text ≤ overlapTokens then text
    else pytrim (overlap_accum tok overlapTokens ws.reverse [])

/-- Page metadata attached verbatim to every chunk. -/
structure PMeta where
  filename : Str
  pageNumber : Nat
  filepath : Str
deriving DecidableEq, Repr

/-- A chunk as built by `chunk_text`: the dict
`{"text": ..., "tokens": ..., **metadata}`. -/
structure PChunk where
  text : Str
  tokens : Nat
  filename : Str
  pageNumber : Nat
  filepath : Str
deriving DecidableEq, Repr

/-- Build the chunk dict from the current accumulated text and count. -/
def mkChunk (md : PMeta) (t : Str) (n : Nat) : PChunk :=
  ⟨t, n, md.filename, md.pageNumber, md.filepath⟩

/-- The sentence loop of `PDFProcessor.chunk_text`, generic in the token
counter `tok` and the overlap extractor `ovf` (so that both the
exact-tokenizer and the fallback strategy are instances).  State:
remaining sentences, emitted chunks, `current_chunk`, `current_tokens`. -/
def chunk_text_loop (tok : Str → Nat) (ovf : Str → Nat → Str)
    (chunkSize overlap : Nat) (md : PMeta) :
    List Str → List PChunk → Str → Nat → List PChunk
  | [], chunks, cur, curTok =>
    if pytrim cur ≠ [] then chunks ++ [mkChunk md (pytrim cur) curTok]
    else chunks
  | s :: rest, chunks, cur, curTok =>
    let st := tok s
    if curTok + st > chunkSize ∧ cur ≠ [] then
      let ov := ovf cur overlap
      let ncur := ov ++ ' ' :: s
      chunk_text_loop tok ovf chunkSize overlap md rest
        (chunks ++ [mkChunk md (pytrim cur) curTok]) ncur (tok ncur)
    else
      chunk_text_loop tok ovf chunkSize overlap md rest chunks
        (if cur ≠ [] then cur ++ ' ' :: s else s) (curTok + st)

/-- `PDFProcessor.chunk_text`, generic in the token-counting strategy. -/
def chunk_text (tok : Str → Nat) (ovf : Str → Nat → Str) (text : Str)
    (md : PMeta) (chunkSize overlap : Nat) : List PChunk :=
  if pytrim text = [] then []
  else chunk_text_loop tok ovf chunkSize overlap md
    (split_into_sentences text) [] [] 0

/-- `chunk_text` in fallback token-counting mode (`self.tokenizer is None`). -/
def chunk_text_fallback (text : Str) (md : PMeta)
    (chunkSize overlap : Nat) : List PChunk :=
  chunk_text count_tokens_fallback get_overlap_text_fallback text md
    chunkSize overlap

/-! ### `vector_store.py` -/

/-- One step of `re.sub(r'\s+', ' ', text)` in `VectorStore._clean_text`:
each maximal whitespace run becomes a single space.  The flag records
whether the previous character belonged to a whitespace run already
replaced. -/
def collapse_ws_aux : Bool → Str → Str
  | _, [] => []
  | prevWs, c :: rest =>
    if isPySpace c then
      if prevWs then collapse_ws_aux true rest
      else ' ' :: collapse_ws_aux true rest
    else c :: collapse_ws_aux false rest

/-- `re.sub(r'\s+', ' ', text)`. -/
def collapse_ws (l : Str) : Str := collapse_ws_aux false l

/-- The character class kept by
`re.sub(r'[^\w\s\.\,\!\?\;\:\-\(\)\[\]\"\']', ' ', text)`:
word characters (modelled as alphanumeric or underscore), whitespace, and
the listed punctuation. -/
def isSafeChar (c : Char) : Bool :=
  c.isAlphanum || c = '_' || isPySpace c ||
    c = '.' || c = ',' || c = '!' || c = '?' || c = ';' || c = ':' ||
    c = '-' || c = '(' || c = ')' || c = '[' || c = ']' || c = '"' || c = '\''

/-- `re.sub(r'[^\w\s\.\,\!\?\;\:\-\(\)\[\]\"\']', ' ', text)`: replace every
character outside the safe set by a space. -/
def replace_unsafe_chars (l : Str) : Str :=
  l.map (fun c => if isSafeChar c then c else ' ')

/-- Python `text.rfind(ch)`: index of the last occurrence, `none` for the
`-1` "not found" result. -/
def rfindIdx (ch : Char) : Str → Option Nat
  | [] => none
  | x :: rest =>
    match rfindIdx ch rest with
    | some i => some (i + 1)
    | none => if x = ch then some 0 else none

/-- `VectorStore._clean_text`: collapse whitespace, replace unsafe
characters, truncate to 1000 characters preferring the last period when it
lies strictly beyond position `1000 * 0.8`, and strip. -/
def clean_text (l : Str) : Str :=
  let t1 := replace_unsafe_chars (collapse_ws l)
  let t2 :=
    if 1000 < t1.length then
      let p := t1.take 1000
      match rfindIdx '.' p with
      | some i => if 800 < i then p.take (i + 1) else p
      | none => p
    else t1
  pytrim t2

/-- The retry loop of `VectorStore._get_embedding`.  `backend n` is the
outcome of the HTTP request of the attempt with index `n` (the `requests.post`
/ `raise_for_status` / `data["embedding"]` block, applied to the cleaned
text): `.ok v` for a 2xx response with payload `v`, `.error e` for any
raised exception.  Every `time.sleep(w)` is recorded by appending `w` to
the wait list.  The result is `none` only when the `for` loop body never
runs (`max_retries = 0`), matching Python's implicit `None` return. -/
def get_embedding_from (backend : Nat → Except String (List Int))
    (maxRetries attempt : Nat) (waits : List Nat) :
    Option (Except String (List Int)) × List Nat :=
  if attempt < maxRetries then
    match backend attempt with
    | .ok v => (some (.ok v), waits)
    | .error e =>
      if attempt < maxRetries - 1 then
        get_embedding_from backend maxRetries (attempt + 1)
          (waits ++ [2 ^ attempt])
      else (some (.error ("Embedding generation failed: " ++ e)), waits)
  else (none, waits)
termination_by maxRetries - attempt
decreasing_by omega

/-- `VectorStore._get_embedding`: run the retry loop from attempt 0. -/
def get_embedding (backend : Nat → Except String (List Int))
    (maxRetries : Nat) : Option (Except String (List Int)) × List Nat :=
  get_embedding_from backend maxRetries 0 []

/-- A chunk dict as consumed by `VectorStore.add_documents`. -/
structure SChunk where
  text : String
  filename : String
  pageNumber : Nat
  filepath : String
  tokens : Nat
deriving DecidableEq, Repr

/-- A record stored in the ChromaDB collection: document text, embedding,
and the metadata dict built in `add_documents`. -/
structure SRecord where
  text : String
  embedding : List Int
  filename : String
  pageNumber : Nat
  filepath : String
  tokens : Nat
deriving DecidableEq, Repr

/-- The sequential embedding loop of `add_documents`: embed each text in
order, stopping at the first failure (the exception propagates out of the
`for` loop).  Also returns the number of embedding calls made. -/
def embed_all (embed : String → Except String (List Int)) :
    List String → Except String (List (List Int)) × Nat
  | [] => (.ok [], 0)
  | t :: ts =>
    match embed t with
    | .error e => (.error e, 1)
    | .ok v =>
      match embed_all embed ts with
      | (.error e, n) => (.error e, n + 1)
      | (.ok vs, n) => (.ok (v :: vs), n + 1)

/-- `VectorStore.add_documents`.  `embed` models `self._get_embedding`;
`index` is the state of the collection.  Returns the collection state
after the call, the exception raised (if any; the bare `raise` re-raises
the embedding failure), and the number of embedding calls.  The only
mutation of the collection in the source is the single
`self.collection.add(...)` call after all embeddings succeed, so a failed
call leaves the state untouched. -/
def add_documents (embed : String → Except String (List Int))
    (index : List SRecord) (chunks : List SChunk) :
    List SRecord × Option String × Nat :=
  if chunks.isEmpty then (index, none, 0)
  else
    match embed_all embed (chunks.map (·.text)) with
    | (.error e, n) => (index, some e, n)
    | (.ok embs, n) =>
      (index ++
        List.zipWith
          (fun c v => SRecord.mk c.text v c.filename c.pageNumber c.filepath c.tokens)
          chunks embs,
        none, n)

/-- One row of the ChromaDB `collection.query` response: a document with
its metadata and its distance. -/
structure QRow where
  doc : String
  filename : String
  pageNumber : Nat
  filepath : String
  tokens : Nat
  distance : ℚ
deriving DecidableEq, Repr

/-- A result dict built by `search_similar`. -/
structure SimChunk where
  text : String
  filename : String
  pageNumber : Nat
  filepath : String
  tokens : Nat
  similarityScore : ℚ
deriving DecidableEq, Repr

/-- `VectorStore.search_similar`.  `embed` models `self._get_embedding`
on the query; `queryIndex v n` models `self.collection.query` (its rows
pair `documents`, `metadatas` and `distances`); distances are modelled as
rationals.  Returns the result list and the number of embedding calls.
Both backend failures are caught by the `except` block, which returns
`[]`; the function never raises. -/
def search_similar (embed : String → Except String (List Int))
    (queryIndex : List Int → Nat → Except String (List QRow))
    (query : String) (nResults : Nat) : List SimChunk × Nat :=
  if pytrim query.data = [] then ([], 0)
  else
    match embed query with
    | .error _ => ([], 1)
    | .ok v =>
      match queryIndex v nResults with
      | .error _ => ([], 1)
      | .ok rows =>
        (rows.map (fun r =>
          SimChunk.mk r.doc r.filename r.pageNumber r.filepath r.tokens
            (1 - r.distance)), 1)

/-! ### `chat_engine.py` -/

/-- A retrieved chunk as consumed by `ChatEngine._format_context`. -/
structure CtxChunk where
  text : String
  filename : String
  pageNumber : Nat
deriving DecidableEq, Repr

/-- Python `sep.join(parts)`. -/
def pyJoin (sep : String) : List String → String
  | [] => ""
  | [x] => x
  | x :: xs => x ++ sep ++ pyJoin sep xs

/-- The `context_parts` list built by `_format_context`:
`f"Document {i} [Source: {filename}, Page {page_number}]:\n{text}\n"`,
with `i` counting from 1. -/
def render_parts (i : Nat) : List CtxChunk → List String
  | [] => []
  | c :: rest =>
    ("Document " ++ toString i ++ " [Source: " ++ c.filename ++ ", Page " ++
      toString c.pageNumber ++ "]:\n" ++ c.text ++ "\n") ::
      render_parts (i + 1) rest

/-- `ChatEngine._format_context`. -/
def format_context (chunks : List CtxChunk) : String :=
  if chunks.isEmpty then "No relevant documents found."
  else pyJoin "\n" (render_parts 1 chunks)

/-- The per-chunk rendering named by the amended claim C9: the same parts
without the trailing newline. -/
def render_parts_bare (i : Nat) : List CtxChunk → List String
  | [] => []
  | c :: rest =>
    ("Document " ++ toString i ++ " [Source: " ++ c.filename ++ ", Page " ++
      toString c.pageNumber ++ "]:\n" ++ c.text) ::
      render_parts_bare (i + 1) rest

/-! ### Spec predicates for the chunker claims -/

/-- Relation between an emitted chunk and the consecutive block of
sentences it covers: the chunk text is that block joined by single
spaces, possibly preceded by an injected overlap tail `ov`, and stripped
(claim C2's notion of "the chunks reproduce the sentences in order once
the injected overlap is disregarded"). -/
abbrev ChunkSeg (c : PChunk) (seg : List Str) : Prop :=
  seg ≠ [] ∧
    ((∃ ov, c.text = pytrim (ov ++ ' ' :: joinSp seg)) ∨
      c.text = pytrim (joinSp seg))

/-- Loop invariant tying `current_chunk` to the block of sentences it
currently covers. -/
abbrev CurSeg (cur : Str) (curSeg : List Str) : Prop :=
  (cur = [] ∧ curSeg = []) ∨
    (curSeg ≠ [] ∧ (∃ c ∈ cur, isPySpace c = false) ∧
      ((∃ ov, cur = ov ++ ' ' :: joinSp curSeg) ∨ cur = joinSp curSeg))

/-- The exception clause of the amended claim C1: a chunk either respects
the size bound, or it consists of exactly the content it was created
with — a single sentence `s` (fresh start) or an overlap seed `ov`
followed by the sentence `s` that triggered the rollover — whose token
count already exceeded the bound at creation time. -/
abbrev TokBound (tok : Str → Nat) (chunkSize : Nat) (P : Str → Prop)
    (c : PChunk) : Prop :=
  c.tokens ≤ chunkSize ∨
    ∃ s, P s ∧
      ((c.text = pytrim s ∧ c.tokens = tok s) ∨
        ∃ ov, c.text = pytrim (ov ++ ' ' :: s) ∧ c.tokens = tok (ov ++ ' ' :: s))

/-- Loop invariant for the token-bound claim: `current_tokens` is within
the bound, or `current_chunk` still holds exactly its creation content. -/
abbrev TokState (tok : Str → Nat) (chunkSize : Nat) (P : Str → Prop)
    (cur : Str) (curTok : Nat) : Prop :=
  (cur = [] → curTok = 0) ∧
    (curTok ≤ chunkSize ∨
      ∃ s, P s ∧
        ((cur = s ∧ curTok = tok s) ∨
          ∃ ov, cur = ov ++ ' ' :: s ∧ curTok = tok (ov ++ ' ' :: s)))

/-! ### Theorems -/

/-- C10: calling `add_documents` with an empty chunk sequence is a no-op:
it returns normally (no exception), makes no embedding call, and leaves
the index exactly as it was, whatever the embedding backend does. -/
theorem C10_add_documents_empty_noop
    (embed : String → Except String (List Int)) (index : List SRecord) :
    add_documents embed index [] = (index, none, 0) := by
  simp [add_documents]

/-- C3 (code bug evaluation): in fallback mode with `overlap_tokens = 1`,
`_get_overlap_text` computes `overlap_words = int(1 * 0.75) = 0` and
Python's `words[-0:]` slice returns every word, so the whole two-word text
comes back as the overlap, with estimated token count 2 exceeding the
overlap parameter 1. -/
theorem C3_overlap_bug_eval :
    get_overlap_text_fallback ("alpha beta".toList) 1 = "alpha beta".toList ∧
      count_tokens_fallback ("alpha beta".toList) = 2 ∧ 1 < 2 := by
  decide

/-- Auxiliary for C4: if every attempt with index in `[attempt, n)` fails
with message `f i`, the retry loop ends by raising an error wrapping the
message of the last attempt, `f (n - 1)`. -/
theorem get_embedding_from_all_fail
    (backend : Nat → Except String (List Int)) (f : Nat → String) :
    ∀ fuel attempt waits, (n : Nat) → n - attempt = fuel → attempt < n →
    (∀ i, i < n → backend i = .error (f i)) →
    (get_embedding_from backend n attempt waits).1 =
      some (.error ("Embedding generation failed: " ++ f (n - 1))) := by
  intro fuel
  induction fuel with
  | zero => intro attempt waits n hfuel hlt _; omega
  | succ k ih =>
    intro attempt waits n hfuel hlt hfail
    rw [get_embedding_from]
    simp only [if_pos hlt, hfail attempt hlt]
    by_cases h : attempt < n - 1
    · rw [if_pos h]
      exact ih (attempt + 1) (waits ++ [2 ^ attempt]) n (by omega) (by omega) hfail
    · rw [if_neg h]
      have : attempt = n - 1 := by omega
      rw [this]

/-- C4: with `max_retries = 3`, a backend failing on attempts 0 and 1 and
succeeding on attempt 2 yields the successful embedding after exactly the
two backoff waits `2^0 = 1` and `2^1 = 2` seconds; and a backend failing
on every one of `max_retries ≥ 1` attempts makes `_get_embedding` raise an
error carrying the last underlying cause. -/
theorem C4_retry_backoff :
    (∀ (backend : Nat → Except String (List Int)) (e0 e1 : String)
        (v : List Int),
      backend 0 = .error e0 → backend 1 = .error e1 → backend 2 = .ok v →
      get_embedding backend 3 = (some (.ok v), [1, 2])) ∧
    (∀ (backend : Nat → Except String (List Int)) (n : Nat)
        (f : Nat → String),
      0 < n → (∀ i, i < n → backend i = .error (f i)) →
      (get_embedding backend n).1 =
        some (.error ("Embedding generation failed: " ++ f (n - 1)))) := by
  constructor
  · intro backend e0 e1 v h0 h1 h2
    rw [get_embedding, get_embedding_from, get_embedding_from,
      get_embedding_from]
    simp [h0, h1, h2]
  · intro backend n f hn hfail
    exact get_embedding_from_all_fail backend f n 0 [] n rfl hn hfail

/-- Witness for C4 at a concrete backend: two failures then success gives
the embedding with waits `[1, 2]`; three failures gives the wrapped last
error. -/
theorem C4_retry_backoff_witness :
    get_embedding
        (fun n => if n < 2 then .error (toString n) else .ok [42]) 3 =
      (some (.ok [42]), [1, 2]) ∧
    (get_embedding (fun n => .error (toString n)) 3).1 =
      some (.error ("Embedding generation failed: " ++ toString 2)) := by
  constructor
  · exact C4_retry_backoff.1 (fun n => if n < 2 then .error (toString n) else .ok [42])
      "0" "1" [42] rfl rfl rfl
  · exact C4_retry_backoff.2 (fun n => .error (toString n)) 3 (fun n => toString n)
      (by decide) (fun i _ => rfl)

/-- Auxiliary for C5: if the embeddings of the first `k` texts succeed and
the embedding of the `k`-th text fails, the sequential embedding loop
propagates an error. -/
theorem embed_all_error (embed : String → Except String (List Int)) :
    ∀ (texts : List String) (k : Nat) (hk : k < texts.length) (e : String),
    embed texts[k] = .error e →
    (∀ j (hj : j < texts.length), j < k → ∃ v, embed texts[j] = .ok v) →
    ∃ e', (embed_all embed texts).1 = .error e' := by
  intro texts
  induction texts with
  | nil => intro k hk; simp at hk
  | cons t ts ih =>
    intro k hk e hfail hok
    match k with
    | 0 =>
      refine ⟨e, ?_⟩
      simp only [List.getElem_cons_zero] at hfail
      simp [embed_all, hfail]
    | k + 1 =>
      obtain ⟨v, hv⟩ := hok 0 (by simp) (by omega)
      simp only [List.getElem_cons_zero] at hv
      simp only [List.getElem_cons_succ] at hfail
      obtain ⟨e', he'⟩ := ih k (by simpa using hk) e hfail
        (fun j hj hjk => by
          have := hok (j + 1) (by simpa using hj) (by omega)
          simpa using this)
      rcases hea : embed_all embed ts with ⟨r, n⟩
      rw [hea] at he'
      simp only at he'
      subst he'
      refine ⟨e', ?_⟩
      simp [embed_all, hv, hea]

/-- C5: when embedding some chunk of a non-empty batch fails (all earlier
chunks having embedded successfully), `add_documents` raises and the
collection is exactly as before the call — the single `collection.add`
write never runs, so no partial insert is observable. -/
theorem C5_add_documents_atomic (embed : String → Except String (List Int))
    (index : List SRecord) (chunks : List SChunk) (k : Nat) (e : String)
    (hk : k < chunks.length) (hfail : embed (chunks[k].text) = .error e)
    (hok : ∀ j (hj : j < chunks.length), j < k → ∃ v, embed (chunks[j].text) = .ok v) :
    (add_documents embed index chunks).1 = index ∧
      ∃ e', (add_documents embed index chunks).2.1 = some e' := by
  have hne : chunks.isEmpty = false := by
    cases chunks with
    | nil => simp at hk
    | cons c cs => rfl
  have hk' : k < (chunks.map (·.text)).length := by simpa using hk
  obtain ⟨e', he'⟩ := embed_all_error embed (chunks.map (·.text)) k hk' e
    (by simpa using hfail)
    (fun j hj hjk => by
      have := hok j (by simpa using hj) hjk
      simpa using this)
  rcases hea : embed_all embed (chunks.map (·.text)) with ⟨r, n⟩
  rw [hea] at he'
  simp only at he'
  subst he'
  constructor
  · simp [add_documents, hne, hea]
  · exact ⟨e', by simp [add_documents, hne, hea]⟩

/-- Witness for C5: a two-chunk batch whose second chunk fails to embed
leaves the (sample one-record) index unchanged and surfaces an error. -/
theorem C5_add_documents_atomic_witness :
    (add_documents
        (fun t => if t = "bad" then .error "boom" else .ok [7])
        [SRecord.mk "old" [1] "f.pdf" 1 "f.pdf" 3]
        [SChunk.mk "good" "g.pdf" 1 "g.pdf" 2,
          SChunk.mk "bad" "g.pdf" 2 "g.pdf" 2]).1 =
      [SRecord.mk "old" [1] "f.pdf" 1 "f.pdf" 3] ∧
    ∃ e', (add_documents
        (fun t => if t = "bad" then .error "boom" else .ok [7])
        [SRecord.mk "old" [1] "f.pdf" 1 "f.pdf" 3]
        [SChunk.mk "good" "g.pdf" 1 "g.pdf" 2,
          SChunk.mk "bad" "g.pdf" 2 "g.pdf" 2]).2.1 = some e' :=
  C5_add_documents_atomic
    (fun t => if t = "bad" then .error "boom" else .ok [7])
    [SRecord.mk "old" [1] "f.pdf" 1 "f.pdf" 3]
    [SChunk.mk "good" "g.pdf" 1 "g.pdf" 2, SChunk.mk "bad" "g.pdf" 2 "g.pdf" 2]
    1 "boom" (by decide) rfl
    (fun j hj hjk => ⟨[7], by
      have hj0 : j = 0 := by omega
      subst hj0
      rfl⟩)

/-- C6: `search_similar` never raises.  A whitespace-only (or empty) query
returns the empty sequence with zero embedding-backend calls; a failing
embedding backend, a failing collection query, or an empty index all
yield the empty sequence instead of an error. -/
theorem C6_search_never_raises :
    (∀ (embed : String → Except String (List Int))
        (qi : List Int → Nat → Except String (List QRow))
        (query : String) (n : Nat),
      pytrim query.data = [] → search_similar embed qi query n = ([], 0)) ∧
    (∀ embed qi (query : String) (n : Nat) (e : String),
      embed query = .error e → (search_similar embed qi query n).1 = []) ∧
    (∀ embed qi (query : String) (n : Nat) (v : List Int) (e : String),
      embed query = .ok v → qi v n = .error e →
      (search_similar embed qi query n).1 = []) ∧
    (∀ embed qi (query : String) (n : Nat) (v : List Int),
      embed query = .ok v → qi v n = .ok [] →
      (search_similar embed qi query n).1 = []) := by
  refine ⟨?_, ?_, ?_, ?_⟩
  · intro embed qi query n h
    simp [search_similar, h]
  · intro embed qi query n e he
    by_cases htrim : pytrim query.data = [] <;>
      simp [search_similar, htrim, he]
  · intro embed qi query n v e he hq
    by_cases htrim : pytrim query.data = [] <;>
      simp [search_similar, htrim, he, hq]
  · intro embed qi query n v he hq
    by_cases htrim : pytrim query.data = [] <;>
      simp [search_similar, htrim, he, hq]

/-- Witness for C6 at concrete backends: a whitespace query short-circuits
(zero backend calls); a failing embedding backend, a failing index query
and an empty index each produce the empty result list. -/
theorem C6_search_never_raises_witness :
    search_similar (fun _ => .error "down") (fun _ _ => .error "down")
        "  " 5 = ([], 0) ∧
    (search_similar (fun _ => .error "down") (fun _ _ => .ok []) "q" 5).1 = [] ∧
    (search_similar (fun _ => .ok [1]) (fun _ _ => .error "down") "q" 5).1 = [] ∧
    (search_similar (fun _ => .ok [1]) (fun _ _ => .ok []) "q" 5).1 = [] :=
  ⟨C6_search_never_raises.1 _ _ "  " 5 (by decide),
   C6_search_never_raises.2.1 _ _ "q" 5 "down" rfl,
   C6_search_never_raises.2.2.1 _ _ "q" 5 [1] "down" rfl rfl,
   C6_search_never_raises.2.2.2 _ _ "q" 5 [1] rfl rfl⟩

/-- Auxiliary: a mapped list is pointwise related to its source. -/
theorem forall2_map_self {α β : Type} (P : β → α → Prop) (f : α → β) :
    ∀ l : List α, (∀ a ∈ l, P (f a) a) → List.Forall₂ P (l.map f) l := by
  intro l
  induction l with
  | nil => intro; simp
  | cons a t ih =>
    intro h
    simp only [List.map_cons]
    exact List.Forall₂.cons (h a (by simp)) (ih fun b hb => h b (by simp [hb]))

/-- C7: every result of a successful `search_similar` call carries
`similarity_score = 1 - distance` for its backend row, and ascending
backend distances give descending similarity scores. -/
theorem C7_similarity_scores (embed : String → Except String (List Int))
    (qi : List Int → Nat → Except String (List QRow)) (query : String)
    (n : Nat) (v : List Int) (rows : List QRow)
    (htrim : ¬ pytrim query.data = []) (hv : embed query = .ok v)
    (hrows : qi v n = .ok rows) :
    List.Forall₂ (fun (sc : SimChunk) (r : QRow) =>
        sc.similarityScore = 1 - r.distance)
      (search_similar embed qi query n).1 rows ∧
    ((rows.map (·.distance)).Pairwise (· ≤ ·) →
      ((search_similar embed qi query n).1.map (·.similarityScore)).Pairwise
        (· ≥ ·)) := by
  have hres : (search_similar embed qi query n).1 =
      rows.map (fun r => SimChunk.mk r.doc r.filename r.pageNumber r.filepath
        r.tokens (1 - r.distance)) := by
    simp [search_similar, htrim, hv, hrows]
  constructor
  · rw [hres]
    exact forall2_map_self _ _ rows (fun r _ => rfl)
  · intro hpw
    rw [hres, List.map_map]
    rw [List.pairwise_map] at hpw ⊢
    exact hpw.imp (fun h => by
      simpa using sub_le_sub_left h 1)

/-- Witness for C7 at a two-row backend response with ascending distances
1/4 and 1/2. -/
theorem C7_similarity_scores_witness :
    List.Forall₂ (fun (sc : SimChunk) (r : QRow) =>
        sc.similarityScore = 1 - r.distance)
      (search_similar (fun _ => .ok [1])
        (fun _ _ => .ok [QRow.mk "a" "f.pdf" 1 "f.pdf" 0 (1/4),
          QRow.mk "b" "f.pdf" 2 "f.pdf" 0 (1/2)]) "q" 5).1
      [QRow.mk "a" "f.pdf" 1 "f.pdf" 0 (1/4),
        QRow.mk "b" "f.pdf" 2 "f.pdf" 0 (1/2)] ∧
    (([QRow.mk "a" "f.pdf" 1 "f.pdf" 0 (1/4),
        QRow.mk "b" "f.pdf" 2 "f.pdf" 0 (1/2)].map (·.distance)).Pairwise
        (· ≤ ·) →
      ((search_similar (fun _ => .ok [1])
        (fun _ _ => .ok [QRow.mk "a" "f.pdf" 1 "f.pdf" 0 (1/4),
          QRow.mk "b" "f.pdf" 2 "f.pdf" 0 (1/2)]) "q" 5).1.map
          (·.similarityScore)).Pairwise (· ≥ ·)) :=
  C7_similarity_scores (fun _ => .ok [1])
    (fun _ _ => .ok [QRow.mk "a" "f.pdf" 1 "f.pdf" 0 (1/4),
      QRow.mk "b" "f.pdf" 2 "f.pdf" 0 (1/2)]) "q" 5 [1]
    [QRow.mk "a" "f.pdf" 1 "f.pdf" 0 (1/4),
      QRow.mk "b" "f.pdf" 2 "f.pdf" 0 (1/2)]
    (by decide) rfl rfl

/-- C9 counterexample: for a single retrieved chunk, the formatted context
is not the literal `"[Source: <filename>, Page <page_number>]\n<text>"`
claimed — the code prepends `"Document <i> "` and puts a colon after the
bracket, and appends a trailing newline. -/
theorem C9_counterexample :
    format_context [CtxChunk.mk "hello" "a.pdf" 2] ≠
      "[Source: a.pdf, Page 2]\nhello" := by
  decide

/-- Auxiliary: the parts built by `_format_context` are the bare renderings
with a newline appended. -/
theorem render_parts_eq_map (cs : List CtxChunk) :
    ∀ i, render_parts i cs = (render_parts_bare i cs).map (· ++ "\n") := by
  induction cs with
  | nil => intro i; rfl
  | cons c t ih =>
    intro i
    simp only [render_parts, render_parts_bare, List.map_cons, ih (i + 1)]

/-- Auxiliary: joining newline-terminated parts with `"\n"` equals joining
the bare parts with a blank line (`"\n\n"`) and terminating with a final
newline. -/
theorem pyJoin_map_newline :
    ∀ l : List String, l ≠ [] →
      pyJoin "\n" (l.map (· ++ "\n")) = pyJoin "\n\n" l ++ "\n" := by
  intro l
  induction l with
  | nil => intro h; exact absurd rfl h
  | cons x t ih =>
    intro _
    cases t with
    | nil => rfl
    | cons y u =>
      have step : pyJoin "\n" ((x ++ "\n") :: (y :: u).map (· ++ "\n")) =
          (x ++ "\n") ++ "\n" ++ pyJoin "\n" ((y :: u).map (· ++ "\n")) := rfl
      rw [List.map_cons, step, ih (by simp)]
      have hx : pyJoin "\n\n" (x :: y :: u) = x ++ "\n\n" ++ pyJoin "\n\n" (y :: u) := rfl
      rw [hx]
      simp only [String.append_assoc]
      congr 1

/-- C9 (amended): with no retrieved chunks the formatted context is the
literal sentinel `"No relevant documents found."`; with chunks, each chunk
is rendered as `"Document <i> [Source: <filename>, Page <page_number>]:\n<text>"`,
numbered from 1 in order, the renderings joined by blank lines with a
final newline. -/
theorem C9_format_context :
    format_context [] = "No relevant documents found." ∧
    ∀ cs : List CtxChunk, cs ≠ [] →
      format_context cs = pyJoin "\n\n" (render_parts_bare 1 cs) ++ "\n" := by
  constructor
  · rfl
  · intro cs hcs
    have hne : render_parts_bare 1 cs ≠ [] := by
      cases cs with
      | nil => exact absurd rfl hcs
      | cons c t => simp [render_parts_bare]
    have hemp : cs.isEmpty = false := by
      cases cs with
      | nil => exact absurd rfl hcs
      | cons c t => rfl
    rw [format_context, hemp]
    simp only [Bool.false_eq_true, if_false]
    rw [render_parts_eq_map cs 1, pyJoin_map_newline _ hne]

/-- Witness for C9 at a concrete two-chunk list. -/
theorem C9_format_context_witness :
    format_context [] = "No relevant documents found." ∧
    format_context [CtxChunk.mk "hello" "a.pdf" 2, CtxChunk.mk "world" "b.pdf" 7] =
      pyJoin "\n\n"
        (render_parts_bare 1
          [CtxChunk.mk "hello" "a.pdf" 2, CtxChunk.mk "world" "b.pdf" 7]) ++ "\n" :=
  ⟨C9_format_context.1,
   C9_format_context.2
     [CtxChunk.mk "hello" "a.pdf" 2, CtxChunk.mk "world" "b.pdf" 7]
     (by decide)⟩

/-- Auxiliary: stripping never lengthens a string. -/
theorem pytrim_length_le (l : Str) : (pytrim l).length ≤ l.length :=
  le_trans (List.rdropWhile_prefix isPySpace (l.dropWhile isPySpace)).length_le
    (List.dropWhile_suffix isPySpace).length_le

/-- Auxiliary: `rfind` returns an index holding the sought character. -/
theorem rfindIdx_getElem (ch : Char) :
    ∀ (l : Str) (i : Nat), rfindIdx ch l = some i → l[i]? = some ch := by
  intro l
  induction l with
  | nil => intro i h; simp [rfindIdx] at h
  | cons x rest ih =>
    intro i h
    rw [rfindIdx] at h
    cases hr : rfindIdx ch rest with
    | none =>
      rw [hr] at h
      by_cases hx : x = ch
      · subst hx
        rw [if_pos rfl] at h
        injection h with h
        subst h
        simp
      · simp [hx] at h
    | some j =>
      rw [hr] at h
      simp only [Option.some.injEq] at h
      subst h
      simpa using ih j hr

/-- Auxiliary: stripping a string that ends in a non-whitespace character
keeps that final character. -/
theorem pytrim_concat_not_space (w : Str) (c : Char)
    (hc : isPySpace c = false) : ∃ z, pytrim (w ++ [c]) = z ++ [c] := by
  have hcp : ¬ isPySpace c = true := by simp [hc]
  rw [pytrim, List.dropWhile_append]
  by_cases he : (List.dropWhile isPySpace w).isEmpty
  · refine ⟨[], ?_⟩
    rw [if_pos he]
    have : List.dropWhile isPySpace [c] = [c] := by
      simp [List.dropWhile_cons, hc]
    rw [this]
    have := List.rdropWhile_concat_neg (p := isPySpace) (l := []) c hcp
    simpa using this
  · refine ⟨List.dropWhile isPySpace w, ?_⟩
    rw [if_neg he]
    exact List.rdropWhile_concat_neg (p := isPySpace) (l := _) c hcp

/-- C8: `_clean_text` output never exceeds 1000 characters; and whenever
the collapsed/sanitized text exceeds 1000 characters and the last period
of its 1000-character prefix sits at an index strictly beyond 800, the
output is exactly the stripped prefix ending at that period — in
particular it ends with that period, so truncation does not split inside
a word. -/
theorem C8_clean_text_truncation :
    ∀ l : Str, (clean_text l).length ≤ 1000 ∧
      ∀ i, 1000 < (replace_unsafe_chars (collapse_ws l)).length →
        rfindIdx '.' ((replace_unsafe_chars (collapse_ws l)).take 1000) = some i →
        800 < i →
        clean_text l =
          pytrim (((replace_unsafe_chars (collapse_ws l)).take 1000).take (i + 1)) ∧
        (clean_text l).getLast? = some '.' := by
  intro l
  constructor
  · simp only [clean_text]
    refine le_trans (pytrim_length_le _) ?_
    by_cases h1000 : 1000 < (replace_unsafe_chars (collapse_ws l)).length
    · rw [if_pos h1000]
      cases hrf : rfindIdx '.' ((replace_unsafe_chars (collapse_ws l)).take 1000) with
      | none =>
        simp only [hrf, List.length_take]
        omega
      | some i =>
        by_cases hi : 800 < i
        · simp only [hrf, if_pos hi, List.length_take]
          omega
        · simp only [hrf, if_neg hi, List.length_take]
          omega
    · rw [if_neg h1000]
      omega
  · intro i hlen hrf hi
    have ht2 : clean_text l =
        pytrim (((replace_unsafe_chars (collapse_ws l)).take 1000).take (i + 1)) := by
      simp only [clean_text, if_pos hlen, hrf, if_pos hi]
    refine ⟨ht2, ?_⟩
    have hchar : ((replace_unsafe_chars (collapse_ws l)).take 1000)[i]? = some '.' :=
      rfindIdx_getElem '.' _ i hrf
    have htake : ((replace_unsafe_chars (collapse_ws l)).take 1000).take (i + 1) =
        ((replace_unsafe_chars (collapse_ws l)).take 1000).take i ++ ['.'] := by
      rw [List.take_succ, hchar]
      rfl
    rw [ht2, htake]
    obtain ⟨z, hz⟩ := pytrim_concat_not_space
      (((replace_unsafe_chars (collapse_ws l)).take 1000).take i) '.' (by decide)
    rw [hz, List.getLast?_concat]

set_option maxRecDepth 10000 in
/-- Witness for C8 at the 1051-character input `'a' * 850 ++ "." ++ 'b' * 200`:
the sanitized text exceeds 1000 characters, its 1000-character prefix has
its last period at index 850 > 800, and the cleaned text ends at that
period. -/
theorem C8_clean_text_truncation_witness :
    (clean_text (List.replicate 850 'a' ++ '.' :: List.replicate 200 'b')).length ≤ 1000 ∧
    clean_text (List.replicate 850 'a' ++ '.' :: List.replicate 200 'b') =
      pytrim (((replace_unsafe_chars
        (collapse_ws (List.replicate 850 'a' ++ '.' :: List.replicate 200 'b'))).take 1000).take
          (850 + 1)) ∧
    (clean_text (List.replicate 850 'a' ++ '.' :: List.replicate 200 'b')).getLast? =
      some '.' :=
  ⟨(C8_clean_text_truncation (List.replicate 850 'a' ++ '.' :: List.replicate 200 'b')).1,
   (C8_clean_text_truncation (List.replicate 850 'a' ++ '.' :: List.replicate 200 'b')).2
     850 (by decide) (by decide) (by decide)⟩

/-- Auxiliary: the head of a non-trivial `dropWhile` result fails the
predicate. -/
theorem dropWhile_cons_not {α : Type} (p : α → Bool) :
    ∀ (l : List α) (x : α) (xs : List α),
      l.dropWhile p = x :: xs → p x = false := by
  intro l
  induction l with
  | nil => intro x xs h; simp [List.dropWhile] at h
  | cons c t ih =>
    intro x xs h
    by_cases hp : p c = true
    · rw [List.dropWhile_cons, if_pos hp] at h
      exact ih x xs h
    · rw [List.dropWhile_cons, if_neg hp] at h
      obtain ⟨rfl, _⟩ := List.cons.inj h
      exact Bool.eq_false_iff.mpr hp

/-- Auxiliary: stripping yields the empty string exactly when the string
is all whitespace. -/
theorem pytrim_eq_nil_iff (l : Str) :
    pytrim l = [] ↔ ∀ c ∈ l, isPySpace c = true := by
  rw [pytrim, List.rdropWhile_eq_nil_iff]
  constructor
  · intro h
    have hdrop : l.dropWhile isPySpace = [] := by
      cases hd : l.dropWhile isPySpace with
      | nil => rfl
      | cons x xs =>
        have hx : x ∈ l.dropWhile isPySpace := by rw [hd]; simp
        have hfalse := dropWhile_cons_not isPySpace l x xs hd
        rw [h x hx] at hfalse
        exact Bool.noConfusion hfalse
    exact List.dropWhile_eq_nil_iff.mp hdrop
  · intro h x hx
    have hdrop : l.dropWhile isPySpace = [] := List.dropWhile_eq_nil_iff.mpr h
    rw [hdrop] at hx
    simp at hx

/-- Auxiliary: a non-empty stripped string contains a non-whitespace
character. -/
theorem pytrim_ne_nil_exists (l : Str) (h : pytrim l ≠ []) :
    ∃ c ∈ pytrim l, isPySpace c = false := by
  rw [pytrim] at h ⊢
  obtain ⟨t, ht⟩ := List.rdropWhile_prefix isPySpace (l.dropWhile isPySpace)
  cases hs : (l.dropWhile isPySpace).rdropWhile isPySpace with
  | nil => exact absurd hs h
  | cons c0 s' =>
    refine ⟨c0, by simp [hs], ?_⟩
    rw [hs] at ht
    exact dropWhile_cons_not isPySpace l c0 (s' ++ t) ht.symm

/-- Auxiliary: sentence-ending punctuation is not whitespace. -/
theorem sentend_not_space (c : Char) (h : isSentEnd c = true) :
    isPySpace c = false := by
  simp only [isSentEnd, Bool.or_eq_true, decide_eq_true_eq] at h
  rcases h with (rfl | rfl) | rfl <;> decide

/-- Auxiliary: whitespace characters are not sentence-ending punctuation. -/
theorem space_not_sentend (c : Char) (h : isPySpace c = true) :
    isSentEnd c = false := by
  cases hse : isSentEnd c
  · rfl
  · rw [sentend_not_space c hse] at h
    exact Bool.noConfusion h

/-- Auxiliary: on all-whitespace input the regex split produces only
all-whitespace pieces. -/
theorem split_pieces_aux_all_space :
    ∀ (rem : Str) (accR : Str) (inSep : Bool),
      (∀ c ∈ rem, isPySpace c = true) → (∀ c ∈ accR, isPySpace c = true) →
      ∀ piece ∈ split_pieces_aux rem accR inSep, ∀ c ∈ piece,
        isPySpace c = true := by
  intro rem
  induction rem with
  | nil =>
    intro accR inSep _ haccR piece hp c hc
    simp only [split_pieces_aux, List.mem_singleton] at hp
    subst hp
    exact haccR c (by simpa using hc)
  | cons x rest ih =>
    intro accR inSep hrem haccR piece hp c hc
    have hx : isPySpace x = true := hrem x (by simp)
    have hrest : ∀ c ∈ rest, isPySpace c = true :=
      fun c hc => hrem c (by simp [hc])
    rw [split_pieces_aux.eq_def] at hp
    simp only at hp
    cases inSep with
    | true =>
      rw [if_pos rfl, if_pos hx] at hp
      exact ih accR true hrest haccR piece hp c hc
    | false =>
      rw [if_neg (by simp)] at hp
      cases haccR' : accR with
      | nil =>
        rw [haccR'] at hp
        exact ih [x] false hrest (by simpa using hx) piece hp c hc
      | cons p ps =>
        rw [haccR'] at hp
        simp only at hp
        have hps : isSentEnd p = false :=
          space_not_sentend p (haccR p (by simp [haccR']))
        rw [hps] at hp
        simp only [Bool.and_false, Bool.false_eq_true, if_false] at hp
        refine ih (x :: p :: ps) false hrest ?_ piece hp c hc
        intro d hd
        rcases List.mem_cons.mp hd with rfl | hd
        · exact hx
        · exact haccR d (by rw [haccR']; exact hd)

/-- Auxiliary: an all-whitespace text has no sentences. -/
theorem split_into_sentences_of_space (text : Str) (h : pytrim text = []) :
    split_into_sentences text = [] := by
  rw [split_into_sentences]
  rw [List.filter_eq_nil_iff]
  intro s hs
  simp only [List.mem_map] at hs
  obtain ⟨piece, hpiece, rfl⟩ := hs
  have hall : ∀ c ∈ piece, isPySpace c = true :=
    split_pieces_aux_all_space text [] false
      ((pytrim_eq_nil_iff text).mp h) (by simp) piece hpiece
  have : pytrim piece = [] := (pytrim_eq_nil_iff piece).mpr hall
  simp [this]

/-- Auxiliary: every sentence produced by `_split_into_sentences` is
non-empty and contains a non-whitespace character. -/
theorem split_into_sentences_mem (text : Str) (s : Str)
    (hs : s ∈ split_into_sentences text) :
    s ≠ [] ∧ ∃ c ∈ s, isPySpace c = false := by
  rw [split_into_sentences, List.mem_filter] at hs
  obtain ⟨hmem, hne⟩ := hs
  have hne' : s ≠ [] := by simpa using hne
  refine ⟨hne', ?_⟩
  simp only [List.mem_map] at hmem
  obtain ⟨piece, _, rfl⟩ := hmem
  exact pytrim_ne_nil_exists piece hne'

/-- Auxiliary: appending one more word to a space-join. -/
theorem joinSp_concat :
    ∀ (ws : List Str) (s : Str), ws ≠ [] →
      joinSp (ws ++ [s]) = joinSp ws ++ ' ' :: s := by
  intro ws
  induction ws with
  | nil => intro s h; exact absurd rfl h
  | cons w t ih =>
    intro s _
    cases t with
    | nil => rfl
    | cons y u =>
      have : (w :: y :: u) ++ [s] = w :: ((y :: u) ++ [s]) := rfl
      rw [this]
      have hcons : joinSp (w :: ((y :: u) ++ [s])) =
          w ++ ' ' :: joinSp ((y :: u) ++ [s]) := rfl
      rw [hcons, ih s (by simp)]
      simp [joinSp, List.append_assoc]

/-- Auxiliary: the chunk accumulator only ever grows at the end, so the
emitted list factors through an empty accumulator. -/
theorem chunk_text_loop_append (tok : Str → Nat) (ovf : Str → Nat → Str)
    (chunkSize overlap : Nat) (md : PMeta) :
    ∀ (rest : List Str) (chunks : List PChunk) (cur : Str) (curTok : Nat),
      chunk_text_loop tok ovf chunkSize overlap md rest chunks cur curTok =
        chunks ++ chunk_text_loop tok ovf chunkSize overlap md rest [] cur curTok := by
  intro rest
  induction rest with
  | nil =>
    intro chunks cur curTok
    by_cases h : pytrim cur ≠ [] <;>
      simp [chunk_text_loop, h]
  | cons s rest ih =>
    intro chunks cur curTok
    by_cases h : curTok + tok s > chunkSize ∧ cur ≠ []
    · rw [chunk_text_loop, if_pos h, chunk_text_loop, if_pos h]
      rw [ih (chunks ++ [mkChunk md (pytrim cur) curTok]),
        ih ([] ++ [mkChunk md (pytrim cur) curTok])]
      simp [List.append_assoc]
    · rw [chunk_text_loop, if_neg h, chunk_text_loop, if_neg h]
      exact ih chunks _ _

/-- Auxiliary for C1: the loop invariant `TokState` is preserved and every
chunk emitted from an empty accumulator satisfies `TokBound`. -/
theorem chunk_text_loop_tokens (tok : Str → Nat) (ovf : Str → Nat → Str)
    (chunkSize overlap : Nat) (md : PMeta) (P : Str → Prop) :
    ∀ (rest : List Str) (cur : Str) (curTok : Nat),
      (∀ s ∈ rest, P s ∧ s ≠ []) →
      TokState tok chunkSize P cur curTok →
      ∀ c ∈ chunk_text_loop tok ovf chunkSize overlap md rest [] cur curTok,
        TokBound tok chunkSize P c := by
  intro rest
  induction rest with
  | nil =>
    intro cur curTok _ hstate c hc
    rw [chunk_text_loop] at hc
    by_cases h : pytrim cur ≠ []
    · rw [if_pos h] at hc
      simp only [List.nil_append, List.mem_singleton] at hc
      subst hc
      rcases hstate.2 with hle | ⟨s, hPs, hform⟩
      · exact Or.inl hle
      · refine Or.inr ⟨s, hPs, ?_⟩
        rcases hform with ⟨hcur, htok⟩ | ⟨ov, hcur, htok⟩
        · exact Or.inl ⟨by simp [mkChunk, hcur], by simp [mkChunk, htok]⟩
        · exact Or.inr ⟨ov, by simp [mkChunk, hcur], by simp [mkChunk, htok]⟩
    · rw [if_neg h] at hc
      simp at hc
  | cons s rest ih =>
    intro cur curTok hrest hstate c hc
    obtain ⟨hPs, hsne⟩ := hrest s (by simp)
    have hrest' : ∀ t ∈ rest, P t ∧ t ≠ [] :=
      fun t ht => hrest t (by simp [ht])
    rw [chunk_text_loop] at hc
    by_cases hcond : curTok + tok s > chunkSize ∧ cur ≠ []
    · rw [if_pos hcond] at hc
      rw [chunk_text_loop_append tok ovf chunkSize overlap md rest
        ([] ++ [mkChunk md (pytrim cur) curTok])] at hc
      simp only [List.nil_append, List.singleton_append, List.mem_cons] at hc
      rcases hc with rfl | hc
      · rcases hstate.2 with hle | ⟨t, hPt, hform⟩
        · exact Or.inl hle
        · refine Or.inr ⟨t, hPt, ?_⟩
          rcases hform with ⟨hcur, htok⟩ | ⟨ov, hcur, htok⟩
          · exact Or.inl ⟨by simp [mkChunk, hcur], by simp [mkChunk, htok]⟩
          · exact Or.inr ⟨ov, by simp [mkChunk, hcur], by simp [mkChunk, htok]⟩
      · refine ih _ _ hrest' ?_ c hc
        refine ⟨fun habs => ?_, Or.inr ⟨s, hPs, Or.inr ⟨ovf cur overlap, rfl, rfl⟩⟩⟩
        simp at habs
    · rw [if_neg hcond] at hc
      by_cases hcur : cur = []
      · have h0 : curTok = 0 := hstate.1 hcur
        rw [hcur] at hc
        rw [if_neg (by simp)] at hc
        refine ih _ _ hrest' ?_ c hc
        refine ⟨fun habs => absurd habs hsne, ?_⟩
        exact Or.inr ⟨s, hPs, Or.inl ⟨rfl, by rw [h0, Nat.zero_add]⟩⟩
      · have hle : curTok + tok s ≤ chunkSize := by
          by_contra habs
          exact hcond ⟨by omega, hcur⟩
        rw [if_pos hcur] at hc
        refine ih _ _ hrest' ?_ c hc
        exact ⟨fun habs => by simp at habs, Or.inl hle⟩

/-- C1 (amended): every chunk emitted by `chunk_text` — under any
token-counting and overlap strategy — has `tokens ≤ chunk_size`, except
chunks still holding exactly their creation content: a single sentence
(whose token count alone exceeds the bound), or an overlap seed plus the
single sentence that triggered the rollover (whose joint recomputed token
count exceeds the bound).  Such a chunk receives no further sentences, so
its recorded count is the creation-time count. -/
theorem C1_token_bound (tok : Str → Nat) (ovf : Str → Nat → Str)
    (text : Str) (md : PMeta) (chunkSize overlap : Nat) (c : PChunk)
    (hc : c ∈ chunk_text tok ovf text md chunkSize overlap) :
    c.tokens ≤ chunkSize ∨
      ∃ s ∈ split_into_sentences text,
        (c.text = pytrim s ∧ c.tokens = tok s) ∨
        ∃ ov, c.text = pytrim (ov ++ ' ' :: s) ∧
          c.tokens = tok (ov ++ ' ' :: s) := by
  rw [chunk_text] at hc
  by_cases ht : pytrim text = []
  · rw [if_pos ht] at hc
    simp at hc
  · rw [if_neg ht] at hc
    have hall := chunk_text_loop_tokens tok ovf chunkSize overlap md
      (· ∈ split_into_sentences text) (split_into_sentences text) [] 0
      (fun s hs => ⟨hs, (split_into_sentences_mem text s hs).1⟩)
      ⟨fun _ => rfl, Or.inl (Nat.zero_le _)⟩ c hc
    rcases hall with h | ⟨s, hPs, hform⟩
    · exact Or.inl h
    · exact Or.inr ⟨s, hPs, hform⟩

/-- C1 counterexample: with fallback token counting, `chunk_size = 10` and
`overlap = 8` (positive, `overlap < chunk_size`), the two-sentence page
text `"a b c d e f g. h i j k l m n."` has every sentence within the
bound (9 ≤ 10) yet `chunk_text` emits a chunk recording 17 tokens — the
overlap seed plus the second sentence — so the excess is not caused by a
single oversized sentence. -/
theorem C1_counterexample :
    0 < 8 ∧ 8 < 10 ∧
    (∀ s ∈ split_into_sentences ("a b c d e f g. h i j k l m n.".toList),
      count_tokens_fallback s ≤ 10) ∧
    ∃ c ∈ chunk_text_fallback ("a b c d e f g. h i j k l m n.".toList)
        (PMeta.mk ("doc.pdf".toList) 1 ("doc.pdf".toList)) 10 8,
      10 < c.tokens := by
  decide

/-- Witness for C1 at a concrete input: the single chunk produced for
`"Hi. Yo."` with `chunk_size = 100` satisfies the amended bound. -/
theorem C1_token_bound_witness :
    (PChunk.mk ("Hi. Yo.".toList) 2 ("doc.pdf".toList) 1 ("doc.pdf".toList)).tokens ≤ 100 ∨
      ∃ s ∈ split_into_sentences ("Hi. Yo.".toList),
        ((PChunk.mk ("Hi. Yo.".toList) 2 ("doc.pdf".toList) 1 ("doc.pdf".toList)).text =
            pytrim s ∧
          (PChunk.mk ("Hi. Yo.".toList) 2 ("doc.pdf".toList) 1 ("doc.pdf".toList)).tokens =
            count_tokens_fallback s) ∨
        ∃ ov, (PChunk.mk ("Hi. Yo.".toList) 2 ("doc.pdf".toList) 1 ("doc.pdf".toList)).text =
            pytrim (ov ++ ' ' :: s) ∧
          (PChunk.mk ("Hi. Yo.".toList) 2 ("doc.pdf".toList) 1 ("doc.pdf".toList)).tokens =
            count_tokens_fallback (ov ++ ' ' :: s) :=
  C1_token_bound count_tokens_fallback get_overlap_text_fallback
    ("Hi. Yo.".toList) (PMeta.mk ("doc.pdf".toList) 1 ("doc.pdf".toList)) 100 10
    (PChunk.mk ("Hi. Yo.".toList) 2 ("doc.pdf".toList) 1 ("doc.pdf".toList))
    (by decide)

/-- Auxiliary for C2: the loop invariant `CurSeg` is preserved, and the
chunks emitted from an empty accumulator cover exactly the still-pending
sentences, block by block and in order. -/
theorem chunk_text_loop_segs (tok : Str → Nat) (ovf : Str → Nat → Str)
    (chunkSize overlap : Nat) (md : PMeta) :
    ∀ (rest : List Str) (cur : Str) (curSeg : List Str) (curTok : Nat),
      (∀ s ∈ rest, s ≠ [] ∧ ∃ c ∈ s, isPySpace c = false) →
      CurSeg cur curSeg →
      ∃ segs : List (List Str), segs.flatten = curSeg ++ rest ∧
        List.Forall₂ ChunkSeg
          (chunk_text_loop tok ovf chunkSize overlap md rest [] cur curTok)
          segs := by
  intro rest
  induction rest with
  | nil =>
    intro cur curSeg curTok _ hcur
    rcases hcur with ⟨hcurnil, hsegnil⟩ | ⟨hseg, hex, hform⟩
    · subst hcurnil
      subst hsegnil
      refine ⟨[], by simp, ?_⟩
      rw [chunk_text_loop, if_neg (by simp [pytrim])]
      exact List.Forall₂.nil
    · have hne : pytrim cur ≠ [] := by
        intro habs
        obtain ⟨ch, hch, hchf⟩ := hex
        have := (pytrim_eq_nil_iff cur).mp habs ch hch
        rw [hchf] at this
        exact Bool.noConfusion this
      refine ⟨[curSeg], by simp, ?_⟩
      rw [chunk_text_loop, if_pos hne]
      simp only [List.nil_append]
      refine List.Forall₂.cons ⟨hseg, ?_⟩ List.Forall₂.nil
      rcases hform with ⟨ov, hov⟩ | hjoin
      · exact Or.inl ⟨ov, by simp [mkChunk, hov]⟩
      · exact Or.inr (by simp [mkChunk, hjoin])
  | cons s rest ih =>
    intro cur curSeg curTok hsent hcur
    obtain ⟨hsne, hsex⟩ := hsent s (by simp)
    have hsent' : ∀ t ∈ rest, t ≠ [] ∧ ∃ c ∈ t, isPySpace c = false :=
      fun t ht => hsent t (by simp [ht])
    rw [chunk_text_loop]
    by_cases hcond : curTok + tok s > chunkSize ∧ cur ≠ []
    · rw [if_pos hcond]
      rcases hcur with ⟨hcurnil, _⟩ | ⟨hseg, hex, hform⟩
      · exact absurd hcurnil hcond.2
      have hstate' : CurSeg (ovf cur overlap ++ ' ' :: s) [s] := by
        refine Or.inr ⟨by simp, ?_, Or.inl ⟨ovf cur overlap, by simp [joinSp]⟩⟩
        obtain ⟨ch, hch, hchf⟩ := hsex
        exact ⟨ch, by simp [hch], hchf⟩
      obtain ⟨segs', hjoin', hfa'⟩ :=
        ih _ [s] (tok (ovf cur overlap ++ ' ' :: s)) hsent' hstate'
      refine ⟨curSeg :: segs', by simp [hjoin'], ?_⟩
      rw [chunk_text_loop_append tok ovf chunkSize overlap md rest
        ([] ++ [mkChunk md (pytrim cur) curTok])]
      simp only [List.nil_append, List.singleton_append]
      refine List.Forall₂.cons ⟨hseg, ?_⟩ hfa'
      rcases hform with ⟨ov, hov⟩ | hjoin
      · exact Or.inl ⟨ov, by simp [mkChunk, hov]⟩
      · exact Or.inr (by simp [mkChunk, hjoin])
    · rw [if_neg hcond]
      by_cases hcurnil : cur = []
      · have hsegnil : curSeg = [] := by
          rcases hcur with ⟨_, h⟩ | ⟨_, ⟨ch, hch, _⟩, _⟩
          · exact h
          · rw [hcurnil] at hch
            simp at hch
        rw [hcurnil, if_neg (by simp)]
        have hstate' : CurSeg s [s] :=
          Or.inr ⟨by simp, hsex, Or.inr (by simp [joinSp])⟩
        obtain ⟨segs', hjoin', hfa'⟩ := ih _ [s] (curTok + tok s) hsent' hstate'
        exact ⟨segs', by simp [hjoin', hsegnil], hfa'⟩
      · rw [if_pos hcurnil]
        rcases hcur with ⟨h, _⟩ | ⟨hseg, hex, hform⟩
        · exact absurd h hcurnil
        have hstate' : CurSeg (cur ++ ' ' :: s) (curSeg ++ [s]) := by
          refine Or.inr ⟨by simp, ?_, ?_⟩
          · obtain ⟨ch, hch, hchf⟩ := hex
            exact ⟨ch, by simp [hch], hchf⟩
          · rcases hform with ⟨ov, hov⟩ | hjoin
            · refine Or.inl ⟨ov, ?_⟩
              rw [hov, joinSp_concat curSeg s hseg]
              simp [List.append_assoc]
            · refine Or.inr ?_
              rw [hjoin, joinSp_concat curSeg s hseg]
        obtain ⟨segs', hjoin', hfa'⟩ :=
          ih _ (curSeg ++ [s]) (curTok + tok s) hsent' hstate'
        exact ⟨segs', by simp [hjoin'], hfa'⟩

/-- C2: under any token-counting and overlap strategy, there is a
partition of the sentence sequence of `text` into consecutive blocks
such that the emitted chunks realize exactly these blocks in order —
each chunk's text is its block joined by spaces, possibly preceded by an
injected overlap tail — so no sentence is dropped or reordered once the
overlap injection is disregarded. -/
theorem C2_sentences_preserved (tok : Str → Nat) (ovf : Str → Nat → Str)
    (text : Str) (md : PMeta) (chunkSize overlap : Nat) :
    ∃ segs : List (List Str),
      segs.flatten = split_into_sentences text ∧
      List.Forall₂ ChunkSeg (chunk_text tok ovf text md chunkSize overlap)
        segs := by
  rw [chunk_text]
  by_cases ht : pytrim text = []
  · rw [if_pos ht]
    exact ⟨[], by simp [split_into_sentences_of_space text ht],
      List.Forall₂.nil⟩
  · rw [if_neg ht]
    obtain ⟨segs, hjoin, hfa⟩ :=
      chunk_text_loop_segs tok ovf chunkSize overlap md
        (split_into_sentences text) [] [] 0
        (fun s hs => split_into_sentences_mem text s hs)
        (Or.inl ⟨rfl, rfl⟩)
    exact ⟨segs, by simpa using hjoin, hfa⟩

end PdfChat
